import Mathlib

/-!
# Verification of the wiki document-storage layer

Shallow embedding of the filesystem-backed document store of the wiki
(`app/storage.py` together with the store-facing handlers of `app/app.py`).

The on-disk state is modelled by association lists:

* `FS.docs`  — the objects directly under `<data-root>/docs/`.  Each entry is
  named by its directory-entry name; a canonical document is a directory
  `<slug>` (constructor `DirEntry.dir`, carrying the parsed `doc.md` when that
  file exists), a legacy document is a plain file `<slug>.md`
  (constructor `DirEntry.file`).
* `FS.trash` — the objects under `<data-root>/trash/`.

File contents are held in parsed form (`DocFile` = front-matter metadata plus
body).  The textual front-matter codec itself (the external `python-frontmatter`
library, which is not part of this repository's sources) is modelled separately
and its round-trip property is proved below, which justifies storing documents
at the parsed level in the store model.
-/

namespace Wiki

/-- A front-matter value: the store only ever writes strings and lists of
strings (`storage.save_doc`). -/
inductive FMValue where
  | str (s : String)
  | list (l : List String)
  deriving DecidableEq, Repr

/-- Front-matter metadata: an insertion-ordered key/value mapping, as a Python
dict (which `frontmatter.Post` wraps) preserves insertion order. -/
abbrev Metadata := List (String × FMValue)

/-- A parsed document file: front-matter metadata plus Markdown body. -/
structure DocFile where
  metadata : Metadata
  body : String
  deriving DecidableEq, Repr

/-- One directory entry under `docs/` or `trash/`: either a directory (carrying
the parsed `doc.md` when present inside it) or a plain file. -/
inductive DirEntry where
  | dir (doc : Option DocFile)
  | file (content : DocFile)
  deriving DecidableEq, Repr

/-- Association-list lookup by name (a directory never holds two entries with
the same name, so the first match is the entry). -/
def alookup (k : String) : List (String × β) → Option β
  | [] => none
  | (k', v) :: r => if k' = k then some v else alookup k r

/-- Association-list update: replace the entry named `k`, or append a new one.
This matches both overwriting a file at an existing path and Python dict
assignment (which keeps the key's position on update, appends on insert). -/
def aupsert (k : String) (v : β) : List (String × β) → List (String × β)
  | [] => [(k, v)]
  | (k', v') :: r => if k' = k then (k, v) :: r else (k', v') :: aupsert k v r

/-- Association-list removal of the entry named `k`. -/
def aerase (k : String) : List (String × β) → List (String × β)
  | [] => []
  | (k', v') :: r => if k' = k then r else (k', v') :: aerase k r

/-- Directory well-formedness: entry names are distinct (always true of a real
directory listing). -/
def keysNodup (l : List (String × β)) : Prop := (l.map Prod.fst).Nodup

instance (l : List (String × β)) : Decidable (keysNodup l) := by
  unfold keysNodup; infer_instance

/-- The state of the data root: objects under `docs/` and under `trash/`. -/
structure FS where
  docs : List (String × DirEntry)
  trash : List (String × DirEntry)
  deriving DecidableEq, Repr

/-- Python's `str.strip()`: whitespace removed from both ends. -/
def pyStrip (s : String) : String :=
  String.mk (((s.toList.dropWhile Char.isWhitespace).reverse.dropWhile
    Char.isWhitespace).reverse)

/-- Python's `str.lower()` (ASCII case folding suffices for the data the
store writes). -/
def pyLower (s : String) : String :=
  String.mk (s.toList.map Char.toLower)

/-- Python's character slice `s[:n]`. -/
def takeStr (n : Nat) (s : String) : String :=
  String.mk (s.toList.take n)

/-- Python's `str.split(sep)` for a one-character separator. -/
def splitChar (sep : Char) : List Char → List (List Char)
  | [] => [[]]
  | c :: r =>
    if c = sep then [] :: splitChar sep r
    else
      match splitChar sep r with
      | [] => [[c]]
      | w :: ws => (c :: w) :: ws

/-- Python's `str.split(sep)` for a one-character separator, on strings. -/
def splitOnChar (sep : Char) (s : String) : List String :=
  (splitChar sep s.toList).map String.mk

/-- Python's `str.replace(".md", "")`: removes every (non-overlapping,
left-to-right) occurrence of the three characters `.md`. -/
def removeMd : List Char → List Char
  | [] => []
  | '.' :: 'm' :: 'd' :: r => removeMd r
  | c :: r => c :: removeMd r

/-- Modelled from the spec: the slug of a title (the external `slugify`
library is not part of this repository's sources).  Glossary: "URL-safe
normalized identifier derived from a title" — lowercase alphanumeric runs
joined by single hyphens, as `python-slugify` produces for ASCII titles. -/
def slugify (s : String) : String :=
  let mapped := String.mk (s.toList.map (fun c => if c.isAlphanum then c.toLower else ' '))
  String.intercalate "-" ((splitOnChar ' ' mapped).filter (fun w => w ≠ ""))

/-- The parsed canonical document of a slug, when the canonical file
`docs/<slug>/doc.md` exists (`os.path.exists(new_path)`). -/
def canonDoc (fs : FS) (slug : String) : Option DocFile :=
  match alookup slug fs.docs with
  | some (.dir (some d)) => some d
  | _ => none

/-- Embedding of `storage.read_doc`: canonical format first; if only the legacy flat file
exists, migrate it (`os.makedirs` + `shutil.copy2`) into canonical form and
return its parse.  Returns the document (or `none`) and the store afterwards. -/
def read_doc (fs : FS) (slug0 : String) : Option DocFile × FS :=
  let slug := pyStrip slug0
  match canonDoc fs slug with
  | some d => (some d, fs)
  | none =>
    match alookup (slug ++ ".md") fs.docs with
    | none => (none, fs)
    | some lege =>
      match alookup slug fs.docs with
      | some (.file _) =>
        -- `os.makedirs(docs/<slug>)` raises on an existing plain file; the
        -- except-branch then loads the legacy path directly.
        ((match lege with | .file d => some d | .dir _ => none), fs)
      | _ =>
        match lege with
        | .file d =>
          -- copy2 legacy -> canonical, then load the canonical file
          (some d, { fs with docs := aupsert slug (.dir (some d)) fs.docs })
        | .dir _ =>
          -- `shutil.copy2` of a directory raises; the fallback load of the
          -- legacy path (a directory) raises too, so the result is `None`,
          -- but `os.makedirs` has already ensured the canonical directory.
          (none, { fs with docs :=
            (if (alookup slug fs.docs).isNone then
              aupsert slug (.dir none) fs.docs
            else fs.docs) })

/-- The `tags` argument of `storage.save_doc`: a comma-separated string or a
structured list (Python also accepts tuples/sets, which a list subsumes). -/
inductive TagsArg where
  | str (s : String)
  | list (l : List String)
  deriving DecidableEq, Repr

/-- Python comprehension `[t.strip() for t in s.split(",") if t.strip()]`. -/
def splitTags (s : String) : List String :=
  ((splitOnChar ',' s).map pyStrip).filter (fun t => t ≠ "")

/-- Truthiness of a front-matter value as Python's `not post.get(...)` sees
it: missing, the empty string and the empty list are falsy. -/
def fmTruthy : Option FMValue → Bool
  | none => false
  | some (.str s) => s ≠ ""
  | some (.list l) => !l.isEmpty

/-- The metadata-merge step of `storage.save_doc`, in source order: starting
from the loaded (or fresh) post's metadata `md0`, apply every front-matter
assignment the source performs. -/
def saveMetadata (md0 : Metadata) (slug title body author_name : String)
    (icon_url? description? : Option String) (tags_list : Option (List String))
    (category? cover_url? access_level? : Option String) (now : String) : Metadata :=
  let md1 := match access_level? with
    | some a => aupsert "access_level" (.str a) md0
    | none => if (alookup "access_level" md0).isNone
        then aupsert "access_level" (.str "d1") md0 else md0
  -- post["title"] = title or post.get("title", slug)
  let md2 := aupsert "title"
    (if title = "" then (alookup "title" md1).getD (.str slug) else .str title) md1
  let md3 := aupsert "last_edited_at" (.str now) md2
  let md4 := aupsert "last_edited_by" (.str author_name) md3
  let md5 := if (alookup "created_at" md4).isNone
    then aupsert "created_at" (.str now) md4 else md4
  let md6 := if (alookup "created_by" md5).isNone
    then aupsert "created_by" (.str author_name) md5 else md5
  let md7 := match description? with
    | some dsc => aupsert "description" (.str dsc) md6
    | none => if fmTruthy (alookup "description" md6) then md6
        else aupsert "description" (.str (takeStr 300 (pyStrip body))) md6
  let md8 := match icon_url? with
    | some u => aupsert "icon_url" (.str u) md7 | none => md7
  let md9 := match cover_url? with
    | some u => aupsert "cover_url" (.str u) md8 | none => md8
  let md10 := match category? with
    | some c => aupsert "category" (.str c) md9 | none => md9
  match tags_list with
  | some l => aupsert "tags" (.list l) md10 | none => md10

/-- Embedding of `storage.save_doc`.  All arguments positional, in the source's
order (`title, body, author_name, slug, icon_url, description, tags, category,
cover_url, access_level`); `now` stands for the formatted current time
`datetime.now(BRT).strftime(...)`.  Returns `none` when the underlying
filesystem calls raise (`os.makedirs` on a plain file at `docs/<slug>`, or
`frontmatter.load` on a directory at the legacy path). -/
def save_doc (fs : FS) (title body author_name : String)
    (slug? icon_url? description? : Option String) (tags? : Option TagsArg)
    (category? cover_url? access_level? : Option String) (now : String) :
    Option (String × FS) :=
  -- `if not slug: slug = slugify(title or "documento")`
  let slug := match slug? with
    | some s => if s = "" then slugify (if title = "" then "documento" else title) else s
    | none => slugify (if title = "" then "documento" else title)
  match alookup slug fs.docs with
  | some (.file _) => none  -- os.makedirs(doc_dir, exist_ok=True) raises
  | _ =>
    -- os.makedirs(doc_dir, exist_ok=True)
    let docs0 := if (alookup slug fs.docs).isNone
      then aupsert slug (.dir none) fs.docs else fs.docs
    -- tags -> list (or None, leaving prior tags untouched)
    let tags_list : Option (List String) := match tags? with
      | some (.str s) => some (splitTags s)
      | some (.list l) => some ((l.map pyStrip).filter (fun t => t ≠ ""))
      | none => none
    -- load the existing post: canonical first, else legacy, else a fresh one;
    -- `frontmatter.load` on a directory at the legacy path raises.
    let post? : Option (Option DocFile) := match alookup slug fs.docs with
      | some (.dir (some d)) => some (some d)
      | _ => match alookup (slug ++ ".md") fs.docs with
        | some (.file d) => some (some d)
        | some (.dir _) => none
        | none => some none
    match post? with
    | none => none
    | some p =>
      let md := saveMetadata (p.getD ⟨[], ""⟩).metadata slug title body author_name
        icon_url? description? tags_list category? cover_url? access_level? now
      some (slug, { fs with docs := aupsert slug (.dir (some ⟨md, body⟩)) docs0 })

/-- Existence of a directory at `docs/<p>` (`os.path.isdir`). -/
def isDirAt (fs : FS) (p : String) : Bool :=
  match alookup p fs.docs with
  | some (.dir _) => true
  | _ => false

/-- Embedding of `storage.delete_doc`: soft delete into the trash holding area.  `ts` is
the formatted `datetime.utcnow().strftime("%Y-%m-%d_%H-%M-%S")` timestamp. -/
def delete_doc (fs : FS) (slug : String) (ts : String) : Bool × FS :=
  match alookup slug fs.docs with
  | some (.dir doc) =>
    (true, { fs with
      docs := aerase slug fs.docs,
      trash := aupsert (slug ++ "_" ++ ts) (.dir doc) fs.trash })
  | _ =>
    match alookup (slug ++ ".md") fs.docs with
    | some e =>
      (true, { fs with
        docs := aerase (slug ++ ".md") fs.docs,
        trash := aupsert (slug ++ "_" ++ ts ++ ".md") e fs.trash })
    | none => (false, fs)

/-- One trash entry as `storage.clean_trash` observes it: its name, its age in
days (`(now - mtime).days`, computed from the last-modified time), and whether
the removal call (`shutil.rmtree` / `os.remove`) succeeds. -/
structure TrashScan where
  name : String
  ageDays : Int
  removeOk : Bool
  deriving DecidableEq, Repr

/-- Embedding of `storage.clean_trash`: one scan of the holding area; entries at or beyond
the age threshold are removed and their names collected; a failed removal is
logged and skipped (the entry stays) without aborting the sweep.  Returns the
removed names together with the entries remaining in the holding area. -/
def clean_trash (entries : List TrashScan) (olderThanDays : Int) :
    List String × List TrashScan :=
  match entries with
  | [] => ([], [])
  | e :: rest =>
    let r := clean_trash rest olderThanDays
    if olderThanDays ≤ e.ageDays then
      if e.removeOk then (e.name :: r.1, r.2) else (r.1, e :: r.2)
    else (r.1, e :: r.2)

/-- Embedding of `app.restore_doc`'s slug recovery: the prefix of the trash-entry name
before the first underscore, with `".md"` occurrences removed
(`name.split("_")[0].replace(".md", "")`). -/
def baseNameOf (name : String) : String :=
  String.mk (removeMd (((splitOnChar '_' name).headD name).toList))

/-- The stored front-matter value of key `k` in the canonical document of a
slug. -/
def metaAt (fs : FS) (slug k : String) : Option FMValue :=
  match canonDoc fs slug with
  | some d => alookup k d.metadata
  | none => none

/-- Presence of a plain (non-directory) file at `docs/<p>` that is not a
legacy `*.md` name — such an object can only be produced by restoring a
legacy-file trash entry, never by the store's own writes. -/
def strayFileAt (fs : FS) (p : String) : Bool :=
  match alookup p fs.docs with
  | some (.file _) => true
  | _ => false

/-- The existing document that `storage.save_doc` loads and merges for a
slug: the canonical file if it exists, else the legacy flat file (the load
cascade of `save_doc`, `if os.path.exists(md_path_new) ... elif
os.path.exists(legacy_path) ...`).  `none` when the slug holds no document
in either form. -/
def loadedPost (fs : FS) (slug : String) : Option DocFile :=
  match alookup slug fs.docs with
  | some (.dir (some d)) => some d
  | _ =>
    match alookup (slug ++ ".md") fs.docs with
    | some (.file d) => some d
    | _ => none

/-- Outcome of the restore handler. -/
inductive RestoreOutcome where
  | invalidName | notFound | conflict | restored
  deriving DecidableEq, Repr

/-- Embedding of `app.restore_doc` (the `/trash/restore` handler, boundary layer): derives
the base slug, refuses when any of the canonical file, the legacy file or the
destination path already exists, otherwise moves the trash entry back to the
canonical directory location `docs/<base>`. -/
def restore_doc (fs : FS) (name0 : String) : RestoreOutcome × FS :=
  let name := pyStrip name0
  if name = "" then (.invalidName, fs)
  else
    match alookup name fs.trash with
    | none => (.notFound, fs)
    | some e =>
      let base := baseNameOf name
      if (canonDoc fs base).isSome || (alookup (base ++ ".md") fs.docs).isSome
          || (alookup base fs.docs).isSome then
        (.conflict, fs)
      else
        (.restored, { fs with
          trash := aerase name fs.trash,
          docs := aupsert base e fs.docs })

/-- Case-insensitive substring test, Python's `q in hay` after lowering. -/
def strContains (hay pat : String) : Bool :=
  hay.toList.tails.any (fun t => pat.toList.isPrefixOf t)

/-- Splits a directory-entry name of the shape `<base>.md` into its base,
embedding `f.endswith(".md")` together with `f[:-3]`. -/
def splitMd (s : String) : Option String :=
  let cs := s.toList
  if 3 ≤ cs.length ∧ cs.drop (cs.length - 3) = ['.', 'm', 'd'] then
    some (String.mk (cs.take (cs.length - 3)))
  else none

/-- String field access `post.get(key, default)` as the listing uses it (the
listing concatenates these into the search haystack, so only string values are
usable there). -/
def getStrOr (md : Metadata) (k : String) (dflt : String) : String :=
  match alookup k md with
  | some (.str s) => s
  | _ => dflt

/-- Tag normalization of the listing: a scalar `tags` value is wrapped into a
one-element list, every element is stringified/stripped, empties dropped. -/
def ptagsOf (md : Metadata) : List String :=
  let raw := match alookup "tags" md with
    | some (.list l) => l
    | some (.str s) => [s]
    | none => []
  (raw.map pyStrip).filter (fun t => t ≠ "")

/-- One row of the listing result (the fields the filters and the claims
need; the rendered body excerpt, produced through the external `markdown`
library, carries no information the filters consult and is omitted). -/
structure Summary where
  slug : String
  title : String
  description : String
  tags : List String
  body : String
  deriving DecidableEq, Repr

/-- The combined text/tag filter of `storage.list_docs` applied to one
document's fields, in source order: the haystack is
`" ".join([title, description, " ".join(ptags), content])` lowered, and the
tag test intersects the lowered document tags with the wanted set. -/
def passesFilters (q : String) (want : List String) (title description : String)
    (ptags : List String) (content : String) : Bool :=
  (q = "" || strContains
      (pyLower (String.intercalate " " [title, description, String.intercalate " " ptags, content]))
      q)
  && (want.isEmpty || ptags.any (fun t => want.contains (pyLower t)))

/-- The canonical-format pass of `storage.list_docs` for one directory entry:
subdirectories of `docs/` containing a `doc.md`. -/
def canonSummary (q : String) (want : List String) (name : String) (e : DirEntry) :
    Option Summary :=
  match e with
  | .dir (some d) =>
    let title := getStrOr d.metadata "title" name
    let description := getStrOr d.metadata "description" ""
    let ptags := ptagsOf d.metadata
    if passesFilters q want title description ptags d.body then
      some ⟨name, title, description, ptags, d.body⟩
    else none
  | _ => none

/-- The legacy-format pass of `storage.list_docs` for one directory entry:
plain `*.md` files (a directory named `*.md` fails both `frontmatter.load`
and the raw-read fallback, so it yields nothing).  The legacy result dict
carries no `body` key. -/
def legacySummary (q : String) (want : List String) (lslug : String) (e : DirEntry) :
    Option Summary :=
  match e with
  | .file d =>
    let title := getStrOr d.metadata "title" lslug
    let description := getStrOr d.metadata "description" ""
    let ptags := ptagsOf d.metadata
    if passesFilters q want title description ptags d.body then
      some ⟨lslug, title, description, ptags, ""⟩
    else none
  | _ => none

/-- Embedding of `storage.list_docs`: the canonical pass over `docs/` followed
by the legacy pass over the `*.md` files not shadowed by a canonical result.
The `nivel` argument is accepted exactly as in the source.  The source's
shadow check scans the results accumulated so far, which at legacy time are
all canonical rows plus earlier legacy rows; a legacy row can never match a
later legacy slug (distinct `*.md` names give distinct slugs), so checking
against the canonical rows is the same test. -/
def list_docs (fs : FS) (query : String) (tags : List String) (nivel : String) :
    List Summary :=
  let q := pyLower (pyStrip query)
  let want := (tags.map (fun t => pyLower (pyStrip t))).filter (fun t => t ≠ "")
  let canon := fs.docs.filterMap (fun p => canonSummary q want p.1 p.2)
  let legacy := fs.docs.filterMap (fun p =>
    match splitMd p.1 with
    | some lslug =>
      if canon.any (fun r => r.slug = lslug) then none
      else legacySummary q want lslug p.2
    | none => none)
  canon ++ legacy

/-- Outcome of the create handler. -/
inductive NewDocOutcome where
  | validationError | conflict | ioError | created (slug : String)
  deriving DecidableEq, Repr

/-- Embedding of `app.new_doc` (the `/docs/new` POST handler, the create-only entry point):
validates the title, derives the slug, refuses when the canonical file
`docs/<slug>/doc.md` already exists, otherwise saves through
`storage.save_doc` (with `icon_url=None`; the icon-upload side path is not
part of the store state). -/
def new_doc (fs : FS) (titleForm bodyForm descriptionForm tagsForm accessForm : String)
    (user now : String) : NewDocOutcome × FS :=
  let title := pyStrip titleForm
  let description := pyStrip descriptionForm
  let tags := splitTags tagsForm
  if title = "" then (.validationError, fs)
  else
    let slug := slugify title
    if (canonDoc fs slug).isSome then (.conflict, fs)
    else
      match save_doc fs title bodyForm user (some slug) none (some description)
          (some (.list tags)) none none (some accessForm) now with
      | some (slug', fs') => (.created slug', fs')
      | none => (.ioError, fs)

/-!
## Front-matter codec

Modelled from the spec: the codec converting between a document's on-disk text
and an in-memory `(metadata, body)` pair is the external `python-frontmatter`
library (§4.1), which is not part of this repository's sources.  Following the
spec, `serialize` emits the metadata block delimited by the fixed marker line
`---` followed by the body; values are scalars or lists; `parse` splits the
leading block into key/value pairs and treats everything after it as body, and
when the block is malformed or absent falls back to taking the first
non-marker line as an inferred title with empty metadata otherwise.  Scalar
and list-item payloads are escaped so that the emitted form is, in the spec's
words, byte-stable enough to round-trip.  Text is modelled as `List Char`. -/

/-- A front-matter value at codec level: a scalar string or a list of
strings. -/
inductive FMVal where
  | str (s : List Char)
  | list (l : List (List Char))
  deriving DecidableEq, Repr

/-- Codec-level metadata: ordered key/value pairs. -/
abbrev FMMap := List (List Char × FMVal)

/-- The fixed marker line delimiting the metadata block. -/
def marker : List Char := ['-', '-', '-']

/-- Escapes a payload so that it fits on one line: backslash and newline get
backslash escapes. -/
def esc : List Char → List Char
  | [] => []
  | c :: r =>
    if c = '\\' then '\\' :: '\\' :: esc r
    else if c = '\n' then '\\' :: 'n' :: esc r
    else c :: esc r

/-- Inverse of `esc`. -/
def unesc : List Char → List Char
  | [] => []
  | [c] => [c]
  | c :: d :: r =>
    if c = '\\' then
      if d = '\\' then '\\' :: unesc r
      else if d = 'n' then '\n' :: unesc r
      else c :: unesc (d :: r)
    else c :: unesc (d :: r)

/-- The serialized lines of one metadata entry: `key: value` for a scalar,
`key:` followed by one `- item` line per element for a list. -/
def entryLines : List Char × FMVal → List Char
  | (k, .str s) => k ++ ':' :: ' ' :: esc s ++ ['\n']
  | (k, .list l) => k ++ ':' :: '\n' :: (l.map (fun i => '-' :: ' ' :: esc i ++ ['\n'])).flatten

/-- Serializer of the codec: marker line, metadata entries, marker line,
body. -/
def serializeFM (m : FMMap) (b : List Char) : List Char :=
  marker ++ '\n' :: ((m.map entryLines).flatten ++ marker ++ '\n' :: b)

/-- Takes the first line of a text: the content before the first newline and
the rest after it. -/
def takeLine : List Char → List Char × List Char
  | [] => ([], [])
  | c :: r =>
    if c = '\n' then ([], r)
    else
      let p := takeLine r
      (c :: p.1, p.2)

/-- Splits a line at its first colon. -/
def splitColon : List Char → Option (List Char × List Char)
  | [] => none
  | c :: r =>
    if c = ':' then some ([], r)
    else (splitColon r).map (fun p => (c :: p.1, p.2))

theorem takeLine_rest_length_le (cs : List Char) : (takeLine cs).2.length ≤ cs.length := by
  induction cs with
  | nil => simp [takeLine]
  | cons c r ih =>
    simp only [takeLine]
    split
    · simp
    · simpa using Nat.le_succ_of_le ih

theorem takeLine_rest_length_lt {cs : List Char} (h : cs ≠ []) :
    (takeLine cs).2.length < cs.length := by
  cases cs with
  | nil => exact absurd rfl h
  | cons c r =>
    simp only [takeLine]
    split
    · simp
    · simpa using Nat.lt_succ_of_le (takeLine_rest_length_le r)

/-- Consumes the consecutive `- item` lines of a list value. -/
def takeItems (cs : List Char) : List (List Char) × List Char :=
  if h : ('-' :: [' ']).isPrefixOf (takeLine cs).1 ∧ cs ≠ [] then
    (unesc ((takeLine cs).1.drop 2) :: (takeItems (takeLine cs).2).1,
      (takeItems (takeLine cs).2).2)
  else ([], cs)
termination_by cs.length
decreasing_by all_goals exact takeLine_rest_length_lt h.2

theorem takeItems_rest_length_le (cs : List Char) : (takeItems cs).2.length ≤ cs.length := by
  rw [takeItems]
  split
  next h =>
    exact le_trans (le_trans (takeItems_rest_length_le (takeLine cs).2)
      (takeLine_rest_length_le cs)) (le_refl _)
  next h => exact le_refl _
termination_by cs.length
decreasing_by
  rename_i h
  exact takeLine_rest_length_lt h.2

/-- Parses the metadata entries after the opening marker line, up to the
closing marker line; returns the entries and the body, or `none` when the
block is malformed (no closing marker, or a block line without a colon). -/
def parseEntries (cs : List Char) : Option (FMMap × List Char) :=
  if hcs : cs = [] then none
  else
    if (takeLine cs).1 = marker then some ([], (takeLine cs).2)
    else
      match splitColon (takeLine cs).1 with
      | none => none
      | some (k, v) =>
        if v = [] then
          match parseEntries (takeItems (takeLine cs).2).2 with
          | some (es, body) => some ((k, .list (takeItems (takeLine cs).2).1) :: es, body)
          | none => none
        else
          match parseEntries (takeLine cs).2 with
          | some (es, body) =>
            some ((k, .str (unesc (if v.head? = some ' ' then v.tail else v))) :: es, body)
          | none => none
termination_by cs.length
decreasing_by
  · exact lt_of_le_of_lt (takeItems_rest_length_le _) (takeLine_rest_length_lt hcs)
  · exact takeLine_rest_length_lt hcs

/-- The spec's fallback: the first non-marker line becomes an inferred title,
the remainder the body, with empty metadata otherwise. -/
def fallbackParse (cs : List Char) : FMMap × List Char :=
  if hcs : cs = [] then ([], [])
  else
    let p := takeLine cs
    if p.1 = marker then fallbackParse p.2
    else ([(['t', 'i', 't', 'l', 'e'], .str p.1)], p.2)
termination_by cs.length
decreasing_by exact takeLine_rest_length_lt hcs

/-- Parser of the codec: strips the opening marker line, parses the block,
falls back gracefully when the block is malformed or absent. -/
def parseFM (cs : List Char) : FMMap × List Char :=
  if (marker ++ ['\n']).isPrefixOf cs then
    match parseEntries (cs.drop 4) with
    | some r => r
    | none => fallbackParse cs
  else fallbackParse cs

/-- Keys the serializer can emit unambiguously: no colon or newline, and not
starting with the list-item prefix.  Every recognized front-matter key of the
store (`title`, `description`, `tags`, `access_level`, `icon_url`,
`cover_url`, `created_by`, `created_at`, `last_edited_by`, `last_edited_at`,
`category`) satisfies this. -/
def validKey (k : List Char) : Prop :=
  ':' ∉ k ∧ '\n' ∉ k ∧ ¬ ('-' :: [' ']).isPrefixOf k

instance (k : List Char) : Decidable (validKey k) := by
  unfold validKey; infer_instance

/-!
## Association-list lemmas
-/

theorem alookup_aupsert_self (k : String) (v : β) (l : List (String × β)) :
    alookup k (aupsert k v l) = some v := by
  induction l with
  | nil => simp [aupsert, alookup]
  | cons p r ih =>
    obtain ⟨k', v'⟩ := p
    by_cases h : k' = k
    · simp [aupsert, alookup, h]
    · simp [aupsert, alookup, h, ih]

theorem alookup_aupsert_ne (k k' : String) (v : β) (l : List (String × β))
    (h : k' ≠ k) : alookup k' (aupsert k v l) = alookup k' l := by
  have hkk : ¬ k = k' := fun hh => h hh.symm
  induction l with
  | nil => simp [aupsert, alookup, hkk]
  | cons p r ih =>
    obtain ⟨k₀, v₀⟩ := p
    by_cases h0 : k₀ = k
    · subst h0
      simp [aupsert, alookup, hkk]
    · simp only [aupsert, h0, if_neg, not_false_iff, alookup]
      by_cases h1 : k₀ = k'
      · simp [h1]
      · simp [h1, ih]

theorem alookup_aerase_ne (k k' : String) (l : List (String × β))
    (h : k' ≠ k) : alookup k' (aerase k l) = alookup k' l := by
  have hkk : ¬ k = k' := fun hh => h hh.symm
  induction l with
  | nil => simp [aerase, alookup]
  | cons p r ih =>
    obtain ⟨k₀, v₀⟩ := p
    by_cases h0 : k₀ = k
    · subst h0
      simp [aerase, alookup, hkk]
    · simp only [aerase, h0, if_neg, not_false_iff, alookup]
      by_cases h1 : k₀ = k'
      · simp [h1]
      · simp [h1, ih]

theorem alookup_eq_none_of_not_memkey {k : String} {l : List (String × β)}
    (h : k ∉ l.map Prod.fst) : alookup k l = none := by
  induction l with
  | nil => simp [alookup]
  | cons p r ih =>
    obtain ⟨k₀, v₀⟩ := p
    simp only [List.map_cons, List.mem_cons] at h
    push_neg at h
    have hne : ¬ k₀ = k := fun hh => h.1 hh.symm
    simp only [alookup, hne, if_neg, not_false_iff]
    exact ih h.2

theorem alookup_aerase_self (k : String) (l : List (String × β))
    (h : keysNodup l) : alookup k (aerase k l) = none := by
  induction l with
  | nil => simp [aerase, alookup]
  | cons p r ih =>
    obtain ⟨k₀, v₀⟩ := p
    simp only [keysNodup, List.map_cons, List.nodup_cons] at h
    by_cases h0 : k₀ = k
    · subst h0
      simp only [aerase, if_pos rfl]
      exact alookup_eq_none_of_not_memkey h.1
    · simp [aerase, alookup, h0, ih h.2]

theorem mem_of_alookup_eq_some {k : String} {v : β} {l : List (String × β)}
    (h : alookup k l = some v) : (k, v) ∈ l := by
  induction l with
  | nil => simp [alookup] at h
  | cons p r ih =>
    obtain ⟨k₀, v₀⟩ := p
    by_cases h0 : k₀ = k
    · subst h0
      have hv : v₀ = v := by simpa [alookup] using h
      subst hv
      simp
    · simp only [alookup, h0, if_neg, not_false_iff] at h
      simp [ih h]

theorem alookup_eq_some_of_mem {k : String} {v : β} {l : List (String × β)}
    (hnd : keysNodup l) (h : (k, v) ∈ l) : alookup k l = some v := by
  induction l with
  | nil => simp at h
  | cons p r ih =>
    obtain ⟨k₀, v₀⟩ := p
    simp only [keysNodup, List.map_cons, List.nodup_cons] at hnd
    rcases List.mem_cons.mp h with h | h
    · injection h with h1 h2
      subst h1
      subst h2
      simp [alookup]
    · have hne : k₀ ≠ k := by
        intro hh
        subst hh
        exact hnd.1 (List.mem_map.mpr ⟨(k₀, v), h, rfl⟩)
      simp only [alookup, hne, if_neg, not_false_iff]
      exact ih hnd.2 h

theorem alookup_isSome_of_mem {k : String} {v : β} {l : List (String × β)}
    (h : (k, v) ∈ l) : (alookup k l).isSome := by
  induction l with
  | nil => simp at h
  | cons p r ih =>
    obtain ⟨k₀, v₀⟩ := p
    by_cases h0 : k₀ = k
    · simp [alookup, h0]
    · rcases List.mem_cons.mp h with h | h
      · exact absurd (congrArg Prod.fst h).symm h0
      · simp only [alookup, h0, if_neg, not_false_iff]
        exact ih h

theorem ne_append_md (s : String) : s ≠ s ++ ".md" := by
  intro h
  have hl := congrArg String.length h
  rw [String.length_append] at hl
  have h3 : ".md".length = 3 := rfl
  omega

/-!
## Claims
-/

/-- C10.  Listing is tier-blind: for any fixed store state, query string and
tag set, two runs of `list_docs` that differ only in the caller's access-tier
argument produce identical results — the listing engine applies no
access-tier filtering itself. -/
theorem listing_tier_blind (fs : FS) (query : String) (tags : List String)
    (nivel1 nivel2 : String) :
    list_docs fs query tags nivel1 = list_docs fs query tags nivel2 := rfl

/-- C7.  Retention sweep: `clean_trash` removes exactly the entries whose age
(computed from the last-modified time) is at or beyond the threshold and whose
removal call succeeds, returning their names; an entry whose removal fails is
skipped (it stays in the holding area) without aborting the removal of the
remaining entries.  In particular an entry 8 days old is removed by a sweep at
threshold 7 while an entry 6 days old is retained. -/
theorem retention_sweep_spec (entries : List TrashScan) (olderThanDays : Int) :
    ((clean_trash entries olderThanDays).1 =
      ((entries.filter (fun e => decide (olderThanDays ≤ e.ageDays) && e.removeOk)).map
        TrashScan.name)
    ∧ (clean_trash entries olderThanDays).2 =
      entries.filter (fun e => !(decide (olderThanDays ≤ e.ageDays) && e.removeOk)))
    ∧ clean_trash [⟨"entry-8-days-old", 8, true⟩] 7 = (["entry-8-days-old"], [])
    ∧ clean_trash [⟨"entry-6-days-old", 6, true⟩] 7 =
        ([], [⟨"entry-6-days-old", 6, true⟩]) := by
  refine ⟨?_, by decide, by decide⟩
  induction entries with
  | nil => exact ⟨rfl, rfl⟩
  | cons e rest ih =>
    by_cases h1 : olderThanDays ≤ e.ageDays
    · by_cases h2 : e.removeOk
      · refine ⟨?_, ?_⟩ <;> simp [clean_trash, h1, h2, ih.1, ih.2]
      · refine ⟨?_, ?_⟩ <;> simp [clean_trash, h1, h2, ih.1, ih.2]
    · refine ⟨?_, ?_⟩ <;> simp [clean_trash, h1, ih.1, ih.2]

/-- C6.  Soft delete: when the canonical directory exists, `delete_doc` moves
the whole directory (with its contents) into the trash holding area under the
name `<slug>_<timestamp>` and returns `true`; when only a legacy file exists
it moves that file under `<slug>_<timestamp>.md` and returns `true`; when
neither exists it returns `false` and changes nothing. -/
theorem soft_delete_spec (fs : FS) (slug ts : String) (hnd : keysNodup fs.docs) :
    (∀ doc, alookup slug fs.docs = some (.dir doc) →
      (delete_doc fs slug ts).1 = true
      ∧ alookup (slug ++ "_" ++ ts) (delete_doc fs slug ts).2.trash = some (.dir doc)
      ∧ alookup slug (delete_doc fs slug ts).2.docs = none)
    ∧ (∀ d, isDirAt fs slug = false → alookup (slug ++ ".md") fs.docs = some (.file d) →
      (delete_doc fs slug ts).1 = true
      ∧ alookup (slug ++ "_" ++ ts ++ ".md") (delete_doc fs slug ts).2.trash =
          some (.file d)
      ∧ alookup (slug ++ ".md") (delete_doc fs slug ts).2.docs = none)
    ∧ (isDirAt fs slug = false → alookup (slug ++ ".md") fs.docs = none →
      delete_doc fs slug ts = (false, fs)) := by
  refine ⟨?_, ?_, ?_⟩
  · intro doc h
    have hd : delete_doc fs slug ts =
        (true, ⟨aerase slug fs.docs, aupsert (slug ++ "_" ++ ts) (.dir doc) fs.trash⟩) := by
      simp [delete_doc, h]
    rw [hd]
    exact ⟨rfl, alookup_aupsert_self _ _ _, alookup_aerase_self _ _ hnd⟩
  · intro d hdir h
    have hnotdir : ∀ o, alookup slug fs.docs ≠ some (.dir o) := by
      intro o ho
      simp [isDirAt, ho] at hdir
    have hd : delete_doc fs slug ts =
        (true, ⟨aerase (slug ++ ".md") fs.docs,
          aupsert (slug ++ "_" ++ ts ++ ".md") (.file d) fs.trash⟩) := by
      rcases ha : alookup slug fs.docs with _ | e
      · simp [delete_doc, ha, h]
      · cases e with
        | dir o => exact absurd ha (hnotdir o)
        | file c => simp [delete_doc, ha, h]
    rw [hd]
    exact ⟨rfl, alookup_aupsert_self _ _ _, alookup_aerase_self _ _ hnd⟩
  · intro hdir h
    have hnotdir : ∀ o, alookup slug fs.docs ≠ some (.dir o) := by
      intro o ho
      simp [isDirAt, ho] at hdir
    rcases ha : alookup slug fs.docs with _ | e
    · simp [delete_doc, ha, h]
    · cases e with
      | dir o => exact absurd ha (hnotdir o)
      | file c => simp [delete_doc, ha, h]

/-- Witness for C6: the three branches of `soft_delete_spec` at concrete
stores — a canonical document, a legacy-only document, and an absent slug. -/
theorem soft_delete_spec_witness :
    ((delete_doc ⟨[("a", .dir (some ⟨[("title", .str "A")], "B"⟩))], []⟩
        "a" "2025-01-01_00-00-00").1 = true
    ∧ alookup "a_2025-01-01_00-00-00"
        (delete_doc ⟨[("a", .dir (some ⟨[("title", .str "A")], "B"⟩))], []⟩
          "a" "2025-01-01_00-00-00").2.trash = some (.dir (some ⟨[("title", .str "A")], "B"⟩)))
    ∧ ((delete_doc ⟨[("b.md", .file ⟨[], "X"⟩)], []⟩ "b" "2025-01-01_00-00-00").1 = true
    ∧ alookup "b_2025-01-01_00-00-00.md"
        (delete_doc ⟨[("b.md", .file ⟨[], "X"⟩)], []⟩ "b" "2025-01-01_00-00-00").2.trash =
          some (.file ⟨[], "X"⟩))
    ∧ delete_doc ⟨[], []⟩ "c" "2025-01-01_00-00-00" = (false, ⟨[], []⟩) := by
  refine ⟨⟨?_, ?_⟩, ⟨?_, ?_⟩, ?_⟩
  · exact ((soft_delete_spec ⟨[("a", .dir (some ⟨[("title", .str "A")], "B"⟩))], []⟩
      "a" "2025-01-01_00-00-00" (by decide)).1 (some ⟨[("title", .str "A")], "B"⟩)
      (by decide)).1
  · exact ((soft_delete_spec ⟨[("a", .dir (some ⟨[("title", .str "A")], "B"⟩))], []⟩
      "a" "2025-01-01_00-00-00" (by decide)).1 (some ⟨[("title", .str "A")], "B"⟩)
      (by decide)).2.1
  · exact ((soft_delete_spec ⟨[("b.md", .file ⟨[], "X"⟩)], []⟩
      "b" "2025-01-01_00-00-00" (by decide)).2.1 ⟨[], "X"⟩ (by decide) (by decide)).1
  · exact ((soft_delete_spec ⟨[("b.md", .file ⟨[], "X"⟩)], []⟩
      "b" "2025-01-01_00-00-00" (by decide)).2.1 ⟨[], "X"⟩ (by decide) (by decide)).2.1
  · exact (soft_delete_spec ⟨[], []⟩ "c" "2025-01-01_00-00-00" (by decide)).2.2
      (by decide) (by decide)

/-- C2, counterexample to the claim as stated: restoring the legacy-format
trash entry `a_..._.md` executes `shutil.move` to the destination path
`docs/a`, leaving a plain (non-directory) file there.  Restoring a second
trash entry whose base slug is also `a` then fails with a conflict, although
no canonical directory, no canonical `doc.md` file and no legacy `a.md` file
exists — the state where the claim says the restore moves the entry back. -/
theorem restore_conflict_counterexample :
    (restore_doc ⟨[], [("a_2025-01-01_00-00-00.md", .file ⟨[], "L"⟩),
        ("a_2025-01-02_00-00-00", .dir (some ⟨[], "D"⟩))]⟩
      "a_2025-01-01_00-00-00.md").1 = .restored
    ∧ isDirAt (restore_doc ⟨[], [("a_2025-01-01_00-00-00.md", .file ⟨[], "L"⟩),
        ("a_2025-01-02_00-00-00", .dir (some ⟨[], "D"⟩))]⟩
      "a_2025-01-01_00-00-00.md").2 "a" = false
    ∧ canonDoc (restore_doc ⟨[], [("a_2025-01-01_00-00-00.md", .file ⟨[], "L"⟩),
        ("a_2025-01-02_00-00-00", .dir (some ⟨[], "D"⟩))]⟩
      "a_2025-01-01_00-00-00.md").2 "a" = none
    ∧ alookup "a.md" (restore_doc ⟨[], [("a_2025-01-01_00-00-00.md", .file ⟨[], "L"⟩),
        ("a_2025-01-02_00-00-00", .dir (some ⟨[], "D"⟩))]⟩
      "a_2025-01-01_00-00-00.md").2.docs = none
    ∧ alookup "a_2025-01-02_00-00-00" (restore_doc ⟨[],
        [("a_2025-01-01_00-00-00.md", .file ⟨[], "L"⟩),
         ("a_2025-01-02_00-00-00", .dir (some ⟨[], "D"⟩))]⟩
      "a_2025-01-01_00-00-00.md").2.trash = some (.dir (some ⟨[], "D"⟩))
    ∧ (restore_doc (restore_doc ⟨[], [("a_2025-01-01_00-00-00.md", .file ⟨[], "L"⟩),
        ("a_2025-01-02_00-00-00", .dir (some ⟨[], "D"⟩))]⟩
      "a_2025-01-01_00-00-00.md").2 "a_2025-01-02_00-00-00").1 = .conflict := by
  exact ⟨by decide, by decide, by decide, by decide, by decide, by decide⟩

/-- C2 amended: for a trash entry, the original slug is derived as the prefix
before the first underscore (with `".md"` removed); the restore fails with a
conflict — leaving the trash entry and the whole store unchanged — exactly
when the canonical `doc.md` file, the legacy `<slug>.md` file, or any object
at the destination path `docs/<slug>` exists; the destination check covers
not only a canonical directory but also a plain file left there by an earlier
restore of a legacy-format trash entry.  Otherwise the trash entry is moved
back to the canonical directory location `docs/<slug>`. -/
theorem restore_conflict_spec (fs : FS) (name : String) (e : DirEntry)
    (hname : pyStrip name = name) (hne : name ≠ "")
    (he : alookup name fs.trash = some e)
    (hnt : keysNodup fs.trash) :
    (((canonDoc fs (baseNameOf name)).isSome = true
      ∨ (alookup (baseNameOf name ++ ".md") fs.docs).isSome = true
      ∨ (alookup (baseNameOf name) fs.docs).isSome = true) →
      restore_doc fs name = (.conflict, fs))
    ∧ ((canonDoc fs (baseNameOf name)).isSome = false →
      (alookup (baseNameOf name ++ ".md") fs.docs).isSome = false →
      (alookup (baseNameOf name) fs.docs).isSome = false →
      (restore_doc fs name).1 = .restored
      ∧ alookup name (restore_doc fs name).2.trash = none
      ∧ alookup (baseNameOf name) (restore_doc fs name).2.docs = some e) := by
  have hr : restore_doc fs name =
      (if (canonDoc fs (baseNameOf name)).isSome
          || (alookup (baseNameOf name ++ ".md") fs.docs).isSome
          || (alookup (baseNameOf name) fs.docs).isSome then
        (.conflict, fs)
      else
        (.restored, ⟨aupsert (baseNameOf name) e fs.docs, aerase name fs.trash⟩)) := by
    simp only [restore_doc, hname, hne, if_neg, he]
    rfl
  constructor
  · intro hc
    have hcond : ((canonDoc fs (baseNameOf name)).isSome
        || (alookup (baseNameOf name ++ ".md") fs.docs).isSome
        || (alookup (baseNameOf name) fs.docs).isSome) = true := by
      rcases hc with h | h | h
      · simp [h]
      · simp [h]
      · simp [h]
    rw [hr, if_pos hcond]
  · intro h1 h2 h3
    have hcond : ((canonDoc fs (baseNameOf name)).isSome
        || (alookup (baseNameOf name ++ ".md") fs.docs).isSome
        || (alookup (baseNameOf name) fs.docs).isSome) = false := by
      simp [h1, h2, h3]
    rw [hr, if_neg (by simp [hcond])]
    exact ⟨rfl, alookup_aerase_self _ _ hnt, alookup_aupsert_self _ _ _⟩

/-- Witness for C2's amended claim: both branches of `restore_conflict_spec`
at concrete stores — a colliding active document, and a free slug. -/
theorem restore_conflict_spec_witness :
    restore_doc ⟨[("a", .dir (some ⟨[], "live"⟩))],
        [("a_2025-01-01_00-00-00", .dir (some ⟨[], "old"⟩))]⟩
      "a_2025-01-01_00-00-00" =
      (.conflict, ⟨[("a", .dir (some ⟨[], "live"⟩))],
        [("a_2025-01-01_00-00-00", .dir (some ⟨[], "old"⟩))]⟩)
    ∧ (restore_doc ⟨[], [("a_2025-01-01_00-00-00", .dir (some ⟨[], "old"⟩))]⟩
        "a_2025-01-01_00-00-00").1 = .restored
    ∧ alookup "a_2025-01-01_00-00-00"
        (restore_doc ⟨[], [("a_2025-01-01_00-00-00", .dir (some ⟨[], "old"⟩))]⟩
          "a_2025-01-01_00-00-00").2.trash = none
    ∧ alookup "a"
        (restore_doc ⟨[], [("a_2025-01-01_00-00-00", .dir (some ⟨[], "old"⟩))]⟩
          "a_2025-01-01_00-00-00").2.docs = some (.dir (some ⟨[], "old"⟩)) := by
  refine ⟨?_, ?_, ?_, ?_⟩
  · exact (restore_conflict_spec ⟨[("a", .dir (some ⟨[], "live"⟩))],
        [("a_2025-01-01_00-00-00", .dir (some ⟨[], "old"⟩))]⟩
      "a_2025-01-01_00-00-00" (.dir (some ⟨[], "old"⟩)) (by decide) (by decide)
      (by decide) (by decide)).1 (Or.inl (by decide))
  · exact ((restore_conflict_spec ⟨[], [("a_2025-01-01_00-00-00", .dir (some ⟨[], "old"⟩))]⟩
      "a_2025-01-01_00-00-00" (.dir (some ⟨[], "old"⟩)) (by decide) (by decide)
      (by decide) (by decide)).2 (by decide) (by decide) (by decide)).1
  · exact ((restore_conflict_spec ⟨[], [("a_2025-01-01_00-00-00", .dir (some ⟨[], "old"⟩))]⟩
      "a_2025-01-01_00-00-00" (.dir (some ⟨[], "old"⟩)) (by decide) (by decide)
      (by decide) (by decide)).2 (by decide) (by decide) (by decide)).2.1
  · exact ((restore_conflict_spec ⟨[], [("a_2025-01-01_00-00-00", .dir (some ⟨[], "old"⟩))]⟩
      "a_2025-01-01_00-00-00" (.dir (some ⟨[], "old"⟩)) (by decide) (by decide)
      (by decide) (by decide)).2 (by decide) (by decide) (by decide)).2.2

/-- C4.  Idempotent legacy migration: when only the legacy flat file
`docs/<slug>.md` exists, the first `read_doc` creates the canonical file
`docs/<slug>/doc.md` with the legacy file's parsed content (leaving the legacy
file in place), and a second `read_doc` returns an identical parsed result
with no further change to the store. -/
theorem legacy_migration_idempotent (fs : FS) (slug : String) (d : DocFile)
    (htrim : pyStrip slug = slug)
    (h1 : alookup slug fs.docs = none)
    (h2 : alookup (slug ++ ".md") fs.docs = some (.file d)) :
    (read_doc fs slug).1 = some d
    ∧ canonDoc (read_doc fs slug).2 slug = some d
    ∧ alookup (slug ++ ".md") (read_doc fs slug).2.docs = some (.file d)
    ∧ read_doc ((read_doc fs slug).2) slug = ((read_doc fs slug).1, (read_doc fs slug).2) := by
  have hcanon : canonDoc fs slug = none := by simp [canonDoc, h1]
  have hr : read_doc fs slug =
      (some d, { fs with docs := aupsert slug (.dir (some d)) fs.docs }) := by
    simp [read_doc, htrim, hcanon, h1, h2]
  have hcanon1 : canonDoc { fs with docs := aupsert slug (.dir (some d)) fs.docs } slug =
      some d := by
    simp [canonDoc, alookup_aupsert_self]
  refine ⟨by rw [hr], by rw [hr]; exact hcanon1, ?_, ?_⟩
  · rw [hr]
    have := alookup_aupsert_ne slug (slug ++ ".md") (DirEntry.dir (some d)) fs.docs
      (fun hh => ne_append_md slug hh.symm)
    simpa [this] using h2
  · rw [hr]
    simp [read_doc, htrim, hcanon1]

/-- Witness for C4: the migration at a concrete legacy-only store. -/
theorem legacy_migration_idempotent_witness :
    (read_doc ⟨[("a.md", .file ⟨[("title", .str "A")], "B"⟩)], []⟩ "a").1 =
      some ⟨[("title", .str "A")], "B"⟩
    ∧ canonDoc (read_doc ⟨[("a.md", .file ⟨[("title", .str "A")], "B"⟩)], []⟩ "a").2 "a" =
      some ⟨[("title", .str "A")], "B"⟩ := by
  refine ⟨?_, ?_⟩
  · exact (legacy_migration_idempotent ⟨[("a.md", .file ⟨[("title", .str "A")], "B"⟩)], []⟩
      "a" ⟨[("title", .str "A")], "B"⟩ (by decide) (by decide) (by decide)).1
  · exact (legacy_migration_idempotent ⟨[("a.md", .file ⟨[("title", .str "A")], "B"⟩)], []⟩
      "a" ⟨[("title", .str "A")], "B"⟩ (by decide) (by decide) (by decide)).2.1

/-- C9, counterexample to the claim as stated: the store-level write operation
(`save_doc`) called with slug omitted and an empty title does not fail with a
validation error — it silently derives the default slug `documento`
(`slugify(title or "documento")`) and creates that document. -/
theorem write_missing_title_counterexample :
    (save_doc ⟨[], []⟩ "" "body" "u" none none none none none none none "T1").map
      Prod.fst = some "documento"
    ∧ canonDoc ((save_doc ⟨[], []⟩ "" "body" "u" none none none none none none none
        "T1").getD ("", ⟨[], []⟩)).2 "documento" ≠ none := by
  exact ⟨by decide, by decide⟩

/-- C9 amended: validation of a missing title is performed by the create-only
boundary entry point (`new_doc`), not by the store-level write.  A create
request whose title strips to empty is rejected as a validation failure before
any store access, and the store is returned unchanged; the store-level
`save_doc` itself never validates and substitutes the default slug
`documento`. -/
theorem new_doc_missing_title_validation (fs : FS)
    (titleForm bodyForm descriptionForm tagsForm accessForm user now : String)
    (h : pyStrip titleForm = "") :
    new_doc fs titleForm bodyForm descriptionForm tagsForm accessForm user now =
      (.validationError, fs) := by
  simp [new_doc, h]

/-- Witness for C9's amended claim: a whitespace-only title is rejected and
the store, holding one document, is untouched. -/
theorem new_doc_missing_title_validation_witness :
    new_doc ⟨[("a", .dir (some ⟨[], "B"⟩))], []⟩ " " "b" "" "" "d1" "u" "T1" =
      (.validationError, ⟨[("a", .dir (some ⟨[], "B"⟩))], []⟩) :=
  new_doc_missing_title_validation ⟨[("a", .dir (some ⟨[], "B"⟩))], []⟩
    " " "b" "" "" "d1" "u" "T1" (by decide)

/-- C1, counterexample to the claim as stated: with a document existing only
in legacy form (`docs/doc.md`, no canonical directory), a creation with the
title `doc` does not fail with a conflict — it succeeds and overwrites the
document's effective content (the canonical file now read back has the new
body). -/
theorem creation_conflict_counterexample :
    alookup "doc.md" (FS.mk [("doc.md", .file ⟨[("title", .str "doc")], "old"⟩)] []).docs
      = some (.file ⟨[("title", .str "doc")], "old"⟩)
    ∧ (new_doc ⟨[("doc.md", .file ⟨[("title", .str "doc")], "old"⟩)], []⟩
        "doc" "new" "" "" "d1" "u" "T1").1 ≠ .conflict
    ∧ (new_doc ⟨[("doc.md", .file ⟨[("title", .str "doc")], "old"⟩)], []⟩
        "doc" "new" "" "" "d1" "u" "T1").1 = .created "doc"
    ∧ ((read_doc (new_doc ⟨[("doc.md", .file ⟨[("title", .str "doc")], "old"⟩)], []⟩
        "doc" "new" "" "" "d1" "u" "T1").2 "doc").1.map DocFile.body = some "new") := by
  exact ⟨by decide, by decide, by decide, by decide⟩

/-- C1 amended: the create-only entry point fails with a conflict, leaving the
store unchanged, exactly when the canonical file `docs/<slugify(T)>/doc.md`
already exists; a document existing only in legacy form does not trigger the
conflict (the creation then proceeds as a migrating overwrite). -/
theorem creation_conflict_canonical (fs : FS)
    (titleForm bodyForm descriptionForm tagsForm accessForm user now : String)
    (hne : pyStrip titleForm ≠ "")
    (hex : (canonDoc fs (slugify (pyStrip titleForm))).isSome = true) :
    new_doc fs titleForm bodyForm descriptionForm tagsForm accessForm user now =
      (.conflict, fs) := by
  simp [new_doc, hne, hex]

/-- Witness for C1's amended claim: creating `My Doc` twice — the first call
creates `my-doc`, the second fails with a conflict and leaves the store
exactly as the first call left it. -/
theorem creation_conflict_canonical_witness :
    new_doc (new_doc ⟨[], []⟩ "My Doc" "b1" "" "" "d1" "u" "T1").2
        "My Doc" "b2" "" "" "d1" "u" "T2" =
      (.conflict, (new_doc ⟨[], []⟩ "My Doc" "b1" "" "" "d1" "u" "T1").2) :=
  creation_conflict_canonical (new_doc ⟨[], []⟩ "My Doc" "b1" "" "" "d1" "u" "T1").2
    "My Doc" "b2" "" "" "d1" "u" "T2" (by decide) (by decide)

/-- C5, counterexample to the claim as stated: an edit addressed at an
existing slug with the `description` argument omitted does not keep the prior
stored description when that description is empty — the source synthesizes it
from the first 300 characters of the new body. -/
theorem edit_frame_counterexample :
    metaAt ⟨[("a", .dir (some ⟨[("created_at", .str "T0"), ("created_by", .str "u0"),
        ("description", .str "")], "old"⟩))], []⟩ "a" "description" = some (.str "")
    ∧ (save_doc ⟨[("a", .dir (some ⟨[("created_at", .str "T0"), ("created_by", .str "u0"),
        ("description", .str "")], "old"⟩))], []⟩ "t" "hello" "u1" (some "a")
        none none none none none none "T1").map Prod.fst = some "a"
    ∧ metaAt ((save_doc ⟨[("a", .dir (some ⟨[("created_at", .str "T0"),
        ("created_by", .str "u0"), ("description", .str "")], "old"⟩))], []⟩
        "t" "hello" "u1" (some "a") none none none none none none "T1").getD
        ("", ⟨[], []⟩)).2 "a" "description" = some (.str "hello") := by
  exact ⟨by decide, by decide, by decide⟩

theorem loadedPost_legacy {fs : FS} {s : String} {d : DocFile}
    (hload : loadedPost fs s = some d)
    (hnc : canonDoc fs s = none) :
    alookup (s ++ ".md") fs.docs = some (.file d) := by
  unfold loadedPost at hload
  unfold canonDoc at hnc
  have hstep : (match alookup (s ++ ".md") fs.docs with
      | some (.file d') => some d'
      | _ => none) = some d := by
    cases hx : alookup s fs.docs with
    | none =>
      rw [hx] at hload
      exact hload
    | some e =>
      cases e with
      | file c =>
        rw [hx] at hload
        exact hload
      | dir o =>
        cases o with
        | none =>
          rw [hx] at hload
          exact hload
        | some d0 =>
          rw [hx] at hnc
          exact absurd hnc (by simp)
  cases hy : alookup (s ++ ".md") fs.docs with
  | none =>
    rw [hy] at hstep
    exact absurd hstep (by simp)
  | some e =>
    cases e with
    | dir o =>
      rw [hy] at hstep
      exact absurd hstep (by simp)
    | file c =>
      rw [hy] at hstep
      simp only [Option.some.injEq] at hstep
      rw [hstep]

/-- C5 amended: for a write addressed at an existing slug — whether the
document lives in canonical form or only in legacy form (the migrating merge
branch) — the stored `created_at`/`created_by` are preserved whenever
present; `last_edited_at`/`last_edited_by` are always set to the current time
and actor; omitted `tags`, `icon_url` and `cover_url` keep their prior stored
values exactly, and an omitted `access_level` keeps its prior stored value
whenever present; an omitted `description` keeps its prior stored value when
that value is non-empty, and is otherwise synthesized from the first 300
characters of the stripped new body.  `d` is the document the write loads and
merges (canonical, else legacy); the `hstray` hypothesis only rules out a
plain non-`.md` file at `docs/<slug>`, on which `os.makedirs` raises. -/
theorem edit_frame_condition (fs : FS) (s title body author now : String) (d : DocFile)
    (hns : s ≠ "") (hstray : strayFileAt fs s = false)
    (hload : loadedPost fs s = some d) :
    ∃ fs', save_doc fs title body author (some s) none none none none none none now
        = some (s, fs')
    ∧ (∀ v, alookup "created_at" d.metadata = some v →
        metaAt fs' s "created_at" = some v)
    ∧ (∀ v, alookup "created_by" d.metadata = some v →
        metaAt fs' s "created_by" = some v)
    ∧ metaAt fs' s "last_edited_at" = some (.str now)
    ∧ metaAt fs' s "last_edited_by" = some (.str author)
    ∧ metaAt fs' s "tags" = alookup "tags" d.metadata
    ∧ metaAt fs' s "icon_url" = alookup "icon_url" d.metadata
    ∧ metaAt fs' s "cover_url" = alookup "cover_url" d.metadata
    ∧ (∀ v, alookup "access_level" d.metadata = some v →
        metaAt fs' s "access_level" = some v)
    ∧ (fmTruthy (alookup "description" d.metadata) = true →
        metaAt fs' s "description" = alookup "description" d.metadata)
    ∧ (fmTruthy (alookup "description" d.metadata) = false →
        metaAt fs' s "description" = some (.str (takeStr 300 (pyStrip body)))) := by
  obtain ⟨docs1, hsave⟩ : ∃ docs1,
      save_doc fs title body author (some s) none none none none none none now =
        some (s, ⟨aupsert s (.dir (some ⟨saveMetadata d.metadata s title body author
          none none none none none none now, body⟩)) docs1, fs.trash⟩) := by
    cases hx : alookup s fs.docs with
    | none =>
      have hleg := loadedPost_legacy hload (by simp [canonDoc, hx])
      exact ⟨aupsert s (.dir none) fs.docs, by simp [save_doc, hx, hleg, hns]⟩
    | some e =>
      cases e with
      | file c => simp [strayFileAt, hx] at hstray
      | dir o =>
        cases o with
        | some d0 =>
          have hdd : d0 = d := by
            unfold loadedPost at hload
            rw [hx] at hload
            simpa using hload
          subst hdd
          exact ⟨fs.docs, by simp [save_doc, hx, hns]⟩
        | none =>
          have hleg := loadedPost_legacy hload (by simp [canonDoc, hx])
          exact ⟨fs.docs, by simp [save_doc, hx, hleg, hns]⟩
  refine ⟨⟨aupsert s (.dir (some ⟨saveMetadata d.metadata s title body author
      none none none none none none now, body⟩)) docs1, fs.trash⟩, hsave, ?_⟩
  · have hm : ∀ k, metaAt ⟨aupsert s (.dir (some ⟨saveMetadata d.metadata s title body
        author none none none none none none now, body⟩)) docs1, fs.trash⟩ s k =
        alookup k (saveMetadata d.metadata s title body author
          none none none none none none now) := by
      intro k
      simp [metaAt, canonDoc, alookup_aupsert_self]
    refine ⟨?_, ?_, ?_, ?_, ?_, ?_, ?_, ?_, ?_, ?_⟩
    · intro v hv
      rw [hm]
      simp [saveMetadata, alookup_aupsert_ne, alookup_aupsert_self, apply_ite
        (alookup "created_at"), hv]
    · intro v hv
      rw [hm]
      simp [saveMetadata, alookup_aupsert_ne, alookup_aupsert_self, apply_ite
        (alookup "created_by"), hv]
    · rw [hm]
      simp [saveMetadata, alookup_aupsert_ne, alookup_aupsert_self, apply_ite
        (alookup "last_edited_at")]
    · rw [hm]
      simp [saveMetadata, alookup_aupsert_ne, alookup_aupsert_self, apply_ite
        (alookup "last_edited_by")]
    · rw [hm]
      simp [saveMetadata, alookup_aupsert_ne, alookup_aupsert_self, apply_ite
        (alookup "tags")]
    · rw [hm]
      simp [saveMetadata, alookup_aupsert_ne, alookup_aupsert_self, apply_ite
        (alookup "icon_url")]
    · rw [hm]
      simp [saveMetadata, alookup_aupsert_ne, alookup_aupsert_self, apply_ite
        (alookup "cover_url")]
    · intro v hv
      rw [hm]
      simp [saveMetadata, alookup_aupsert_ne, alookup_aupsert_self, apply_ite
        (alookup "access_level"), hv]
    · intro hdesc
      rw [hm]
      simp [saveMetadata, alookup_aupsert_ne, alookup_aupsert_self, apply_ite
        (alookup "description"), hdesc]
    · intro hdesc
      rw [hm]
      simp [saveMetadata, alookup_aupsert_ne, alookup_aupsert_self, apply_ite
        (alookup "description"), hdesc]

/-- Witness for C5's amended claim: an edit with every optional argument
omitted, once at a canonically-stored document (creation fields, tags and the
non-empty description preserved, last-edited fields refreshed) and once at a
document existing only in legacy form (the migrating merge, preserving its
creation timestamp). -/
theorem edit_frame_condition_witness :
    (∃ fs', save_doc ⟨[("a", .dir (some ⟨[("created_at", .str "T0"),
        ("created_by", .str "u0"), ("description", .str "D"),
        ("tags", .list ["x"]), ("icon_url", .str "I"), ("access_level", .str "d2")],
        "old"⟩))], []⟩ "t" "hello" "u1" (some "a") none none none none none none "T1"
      = some ("a", fs')
    ∧ metaAt fs' "a" "created_at" = some (.str "T0")
    ∧ metaAt fs' "a" "last_edited_at" = some (.str "T1")
    ∧ metaAt fs' "a" "tags" = some (.list ["x"])
    ∧ metaAt fs' "a" "description" = some (.str "D"))
    ∧ (∃ fs', save_doc ⟨[("b.md", .file ⟨[("created_at", .str "T0"),
        ("created_by", .str "u0")], "old"⟩)], []⟩
        "t" "hello" "u1" (some "b") none none none none none none "T1"
      = some ("b", fs')
    ∧ metaAt fs' "b" "created_at" = some (.str "T0")
    ∧ metaAt fs' "b" "last_edited_at" = some (.str "T1")) := by
  constructor
  · obtain ⟨fs', h1, h2, h3, h4, h5, h6, h7, h8, h9, h10, h11⟩ :=
      edit_frame_condition ⟨[("a", .dir (some ⟨[("created_at", .str "T0"),
          ("created_by", .str "u0"), ("description", .str "D"),
          ("tags", .list ["x"]), ("icon_url", .str "I"), ("access_level", .str "d2")],
          "old"⟩))], []⟩ "a" "t" "hello" "u1" "T1"
        ⟨[("created_at", .str "T0"), ("created_by", .str "u0"), ("description", .str "D"),
          ("tags", .list ["x"]), ("icon_url", .str "I"), ("access_level", .str "d2")],
          "old"⟩
        (by decide) (by decide) (by decide)
    refine ⟨fs', h1, h2 (.str "T0") (by decide), h4, ?_, ?_⟩
    · rw [h6]
      decide
    · rw [h10 (by decide)]
      decide
  · obtain ⟨fs', h1, h2, h3, h4, h5, h6, h7, h8, h9, h10, h11⟩ :=
      edit_frame_condition ⟨[("b.md", .file ⟨[("created_at", .str "T0"),
          ("created_by", .str "u0")], "old"⟩)], []⟩ "b" "t" "hello" "u1" "T1"
        ⟨[("created_at", .str "T0"), ("created_by", .str "u0")], "old"⟩
        (by decide) (by decide) (by decide)
    exact ⟨fs', h1, h2 (.str "T0") (by decide), h4⟩

theorem strMk_append (a b : List Char) : String.mk a ++ String.mk b = String.mk (a ++ b) :=
  rfl

theorem splitMd_eq {k : String} {b : String} (h : splitMd k = some b) : k = b ++ ".md" := by
  simp only [splitMd] at h
  split at h
  · next hc =>
    injection h with h
    subst h
    have hdm : ".md" = String.mk ['.', 'm', 'd'] := rfl
    rw [hdm, strMk_append, ← hc.2, List.take_append_drop]
    rfl
  · exact absurd h (by simp)

theorem of_ite_none_eq_some {α : Type} {c : Prop} [Decidable c] {x : Option α} {r : α}
    (h : (if c then none else x) = some r) : x = some r := by
  split at h
  · exact absurd h (by simp)
  · exact h

theorem canonSummary_slug {q : String} {want : List String} {n : String} {e : DirEntry}
    {r : Summary} (h : canonSummary q want n e = some r) : r.slug = n := by
  cases e with
  | dir o =>
    cases o with
    | none => simp [canonSummary] at h
    | some d =>
      simp only [canonSummary] at h
      split at h
      · injection h with h
        subst h
        rfl
      · exact absurd h (by simp)
  | file c => simp [canonSummary] at h

theorem legacySummary_slug {q : String} {want : List String} {lslug : String}
    {e : DirEntry} {r : Summary} (h : legacySummary q want lslug e = some r) :
    r.slug = lslug := by
  cases e with
  | dir o => simp [legacySummary] at h
  | file c =>
    simp only [legacySummary] at h
    split at h
    · injection h with h
      subst h
      rfl
    · exact absurd h (by simp)

theorem canonSummary_dir (q : String) (want : List String) (n : String) (d : DocFile) :
    canonSummary q want n (.dir (some d)) =
      (if passesFilters q want (getStrOr d.metadata "title" n)
          (getStrOr d.metadata "description" "") (ptagsOf d.metadata) d.body then
        some ⟨n, getStrOr d.metadata "title" n, getStrOr d.metadata "description" "",
          ptagsOf d.metadata, d.body⟩
      else none) := rfl

theorem passesFilters_iff (q : String) (want : List String)
    (title description : String) (ptags : List String) (content : String) :
    passesFilters q want title description ptags content = true ↔
      ((q = "" ∨ strContains (pyLower (String.intercalate " "
          [title, description, String.intercalate " " ptags, content])) q = true)
       ∧ (want = [] ∨ ∃ t ∈ ptags, pyLower t ∈ want)) := by
  simp [passesFilters, Bool.and_eq_true, Bool.or_eq_true, decide_eq_true_iff,
    List.any_eq_true, List.isEmpty_iff]

/-- C8.  Listing tag filter: a canonical document (with no legacy twin of the
same slug) appears in the listing result exactly when it passes the text
filter and either the normalized requested tag set is empty (which matches
every document) or the case-insensitive intersection of its tags with the
requested set is non-empty. -/
theorem listing_tag_filter (fs : FS) (query : String) (tags : List String)
    (nivel n : String) (d : DocFile) (hnd : keysNodup fs.docs)
    (hcanon : alookup n fs.docs = some (.dir (some d)))
    (hnoleg : alookup (n ++ ".md") fs.docs = none) :
    (∃ r ∈ list_docs fs query tags nivel, r.slug = n) ↔
      ((pyLower (pyStrip query) = "" ∨
         strContains (pyLower (String.intercalate " "
           [getStrOr d.metadata "title" n, getStrOr d.metadata "description" "",
            String.intercalate " " (ptagsOf d.metadata), d.body]))
           (pyLower (pyStrip query)) = true)
       ∧ ((tags.map (fun t => pyLower (pyStrip t))).filter (fun t => t ≠ "") = []
          ∨ ∃ t ∈ ptagsOf d.metadata,
              pyLower t ∈ (tags.map (fun t => pyLower (pyStrip t))).filter
                (fun t => t ≠ ""))) := by
  have hmem : (n, DirEntry.dir (some d)) ∈ fs.docs := mem_of_alookup_eq_some hcanon
  rw [← passesFilters_iff (pyLower (pyStrip query))
    ((tags.map (fun t => pyLower (pyStrip t))).filter (fun t => t ≠ ""))
    (getStrOr d.metadata "title" n) (getStrOr d.metadata "description" "")
    (ptagsOf d.metadata) d.body]
  constructor
  · rintro ⟨r, hr, hslug⟩
    simp only [list_docs, List.mem_append] at hr
    rcases hr with hr | hr
    · obtain ⟨⟨n', e'⟩, hpe, hsumm⟩ := List.mem_filterMap.mp hr
      dsimp only at hsumm
      have hn' : n' = n := by rw [← canonSummary_slug hsumm, hslug]
      subst hn'
      have he' : e' = DirEntry.dir (some d) := by
        have h2 := alookup_eq_some_of_mem hnd hpe
        rw [hcanon] at h2
        injection h2 with hv
        exact hv.symm
      subst he'
      rw [canonSummary_dir] at hsumm
      split at hsumm
      · assumption
      · exact absurd hsumm (by simp)
    · obtain ⟨⟨n', e'⟩, hpe, hout⟩ := List.mem_filterMap.mp hr
      dsimp only at hout
      exfalso
      rcases hsp : splitMd n' with _ | lslug
      · simp only [hsp] at hout
        exact absurd hout (by simp)
      · simp only [hsp] at hout
        have hleg := of_ite_none_eq_some hout
        have hls : lslug = n := by rw [← legacySummary_slug hleg, hslug]
        have hk : n' = n ++ ".md" := by rw [← hls]; exact splitMd_eq hsp
        subst hk
        have hsome := alookup_isSome_of_mem hpe
        rw [hnoleg] at hsome
        exact absurd hsome (by simp)
  · intro hpass
    refine ⟨⟨n, getStrOr d.metadata "title" n, getStrOr d.metadata "description" "",
      ptagsOf d.metadata, d.body⟩, ?_, rfl⟩
    simp only [list_docs, List.mem_append]
    left
    refine List.mem_filterMap.mpr ⟨(n, DirEntry.dir (some d)), hmem, ?_⟩
    rw [canonSummary_dir, if_pos hpass]

/-- Witness for C8: the claim's own example — three documents with tag sets
`api`, `guide` and `api, guide`; filtering by tag `api` returns exactly the
first and the third. -/
theorem listing_tag_filter_witness :
    (∃ r ∈ list_docs ⟨[("a1", .dir (some ⟨[("tags", .list ["api"])], ""⟩)),
        ("a2", .dir (some ⟨[("tags", .list ["guide"])], ""⟩)),
        ("a3", .dir (some ⟨[("tags", .list ["api", "guide"])], ""⟩))], []⟩
        "" ["api"] "n1", r.slug = "a1")
    ∧ (list_docs ⟨[("a1", .dir (some ⟨[("tags", .list ["api"])], ""⟩)),
        ("a2", .dir (some ⟨[("tags", .list ["guide"])], ""⟩)),
        ("a3", .dir (some ⟨[("tags", .list ["api", "guide"])], ""⟩))], []⟩
        "" ["api"] "n1").map Summary.slug = ["a1", "a3"] := by
  refine ⟨?_, by decide⟩
  exact (listing_tag_filter ⟨[("a1", .dir (some ⟨[("tags", .list ["api"])], ""⟩)),
        ("a2", .dir (some ⟨[("tags", .list ["guide"])], ""⟩)),
        ("a3", .dir (some ⟨[("tags", .list ["api", "guide"])], ""⟩))], []⟩
      "" ["api"] "n1" "a1" ⟨[("tags", .list ["api"])], ""⟩ (by decide) (by decide)
      (by decide)).mpr ⟨Or.inl (by decide), Or.inr ⟨"api", by decide, by decide⟩⟩

/-!
## Round-trip of the front-matter codec
-/

theorem esc_no_newline (s : List Char) : '\n' ∉ esc s := by
  induction s with
  | nil => simp [esc]
  | cons c r ih =>
    simp only [esc]
    split_ifs with h1 h2
    · simp only [List.mem_cons]
      push_neg
      exact ⟨by decide, by decide, ih⟩
    · simp only [List.mem_cons]
      push_neg
      exact ⟨by decide, by decide, ih⟩
    · simp only [List.mem_cons]
      push_neg
      exact ⟨fun hh => h2 hh.symm, ih⟩

theorem esc_eq_nil_iff (s : List Char) : esc s = [] ↔ s = [] := by
  cases s with
  | nil => simp [esc]
  | cons c r =>
    simp only [esc]
    split_ifs <;> simp

theorem unesc_esc (s : List Char) : unesc (esc s) = s := by
  induction s with
  | nil => rfl
  | cons c r ih =>
    simp only [esc]
    split_ifs with h1 h2
    · subst h1
      simp [unesc, ih]
    · subst h2
      simp [unesc, ih]
    · cases hr : esc r with
      | nil =>
        have hr0 : r = [] := (esc_eq_nil_iff r).mp hr
        subst hr0
        simp [unesc]
      | cons d t =>
        simp only [unesc]
        rw [if_neg h1, ← hr, ih]

theorem takeLine_append (l r : List Char) (h : '\n' ∉ l) :
    takeLine (l ++ '\n' :: r) = (l, r) := by
  induction l with
  | nil => simp [takeLine]
  | cons c t ih =>
    simp only [List.cons_append, takeLine, List.append_eq]
    have hc : ¬ c = '\n' := fun hh => h (by simp [hh])
    rw [if_neg hc, ih (fun hm => h (List.mem_cons_of_mem _ hm))]

theorem splitColon_append (k v : List Char) (h : ':' ∉ k) :
    splitColon (k ++ ':' :: v) = some (k, v) := by
  induction k with
  | nil => simp [splitColon]
  | cons c t ih =>
    simp only [List.cons_append, splitColon, List.append_eq]
    have hc : ¬ c = ':' := fun hh => h (by simp [hh])
    rw [if_neg hc, ih (fun hm => h (List.mem_cons_of_mem _ hm))]
    rfl

theorem ne_marker_of_colon {l : List Char} (h : ':' ∈ l) : l ≠ marker := by
  intro hh
  subst hh
  simp [marker] at h

theorem not_item_prefix_append {k z : List Char} (hk : ¬ ('-' :: [' ']).isPrefixOf k) :
    ¬ ('-' :: [' ']).isPrefixOf (k ++ ':' :: z) := by
  cases k with
  | nil => simp [List.isPrefixOf]
  | cons c t =>
    cases t with
    | nil => simp [List.isPrefixOf]
    | cons c2 t2 =>
      intro hp
      apply hk
      simp only [List.cons_append, List.isPrefixOf, Bool.and_eq_true, beq_iff_eq] at hp ⊢
      exact hp

theorem takeItems_of_not_item {cs : List Char}
    (h : ¬ (('-' :: [' ']).isPrefixOf (takeLine cs).1 ∧ cs ≠ [])) :
    takeItems cs = ([], cs) := by
  rw [takeItems, dif_neg h]

theorem takeItems_item (i rest : List Char) :
    takeItems ('-' :: ' ' :: (esc i ++ '\n' :: rest)) =
      (i :: (takeItems rest).1, (takeItems rest).2) := by
  have hnl : '\n' ∉ '-' :: ' ' :: esc i := by
    simp only [List.mem_cons]
    push_neg
    exact ⟨by decide, by decide, esc_no_newline i⟩
  have htl : takeLine ('-' :: ' ' :: (esc i ++ '\n' :: rest)) =
      ('-' :: ' ' :: esc i, rest) := by
    have h0 := takeLine_append ('-' :: ' ' :: esc i) rest hnl
    simpa using h0
  have hcond : ('-' :: [' ']).isPrefixOf
        (takeLine ('-' :: ' ' :: (esc i ++ '\n' :: rest))).1
      ∧ ('-' :: ' ' :: (esc i ++ '\n' :: rest)) ≠ [] := by
    rw [htl]
    exact ⟨by simp [List.isPrefixOf], by simp⟩
  rw [takeItems, dif_pos hcond, htl]
  simp [unesc_esc]

theorem takeItems_serialized (items : List (List Char)) (rest : List Char)
    (hrest : ¬ (('-' :: [' ']).isPrefixOf (takeLine rest).1 ∧ rest ≠ [])) :
    takeItems ((items.map (fun i => '-' :: ' ' :: esc i ++ ['\n'])).flatten ++ rest) =
      (items, rest) := by
  induction items with
  | nil => simpa using takeItems_of_not_item hrest
  | cons i is ih =>
    have hshape : ((i :: is).map (fun i => '-' :: ' ' :: esc i ++ ['\n'])).flatten ++ rest
        = '-' :: ' ' :: (esc i ++ '\n' ::
            ((is.map (fun i => '-' :: ' ' :: esc i ++ ['\n'])).flatten ++ rest)) := by
      simp
    rw [hshape, takeItems_item, ih]

theorem takeLine_entry_str (k s : List Char) (rest : List Char) (hk : validKey k) :
    takeLine ((k ++ ':' :: ' ' :: esc s ++ ['\n']) ++ rest) =
      (k ++ ':' :: ' ' :: esc s, rest) := by
  have hnl : '\n' ∉ k ++ ':' :: ' ' :: esc s := by
    simp only [List.mem_append, List.mem_cons]
    push_neg
    exact ⟨hk.2.1, by decide, by decide, esc_no_newline s⟩
  have h0 := takeLine_append (k ++ ':' :: ' ' :: esc s) rest hnl
  have hshape : (k ++ ':' :: ' ' :: esc s) ++ '\n' :: rest =
      (k ++ ':' :: ' ' :: esc s ++ ['\n']) ++ rest := by simp
  rw [← hshape]
  exact h0

theorem takeLine_entry_list (k : List Char) (itemsFlat rest : List Char) (hk : validKey k) :
    takeLine ((k ++ ':' :: '\n' :: itemsFlat) ++ rest) =
      (k ++ [':'], itemsFlat ++ rest) := by
  have hnl : '\n' ∉ k ++ [':'] := by
    simp only [List.mem_append, List.mem_cons]
    push_neg
    exact ⟨hk.2.1, by decide, by simp⟩
  have h0 := takeLine_append (k ++ [':']) (itemsFlat ++ rest) hnl
  have hshape : (k ++ [':']) ++ '\n' :: (itemsFlat ++ rest) =
      (k ++ ':' :: '\n' :: itemsFlat) ++ rest := by simp
  rw [← hshape]
  exact h0

theorem entries_first_line_not_item (m : FMMap) (b : List Char)
    (hk : ∀ p ∈ m, validKey p.1) :
    ¬ (('-' :: [' ']).isPrefixOf
        (takeLine ((m.map entryLines).flatten ++ (marker ++ '\n' :: b))).1
      ∧ ((m.map entryLines).flatten ++ (marker ++ '\n' :: b)) ≠ []) := by
  intro hcontra
  apply absurd hcontra.1
  cases m with
  | nil =>
    have htl : takeLine (marker ++ '\n' :: b) = (marker, b) :=
      takeLine_append _ _ (by decide)
    simp only [List.map_nil, List.flatten_nil, List.nil_append]
    rw [htl]
    dsimp only
    decide
  | cons p m' =>
    obtain ⟨k, v⟩ := p
    have hkv := hk (k, v) (by simp)
    cases v with
    | str s =>
      have hshape : (((k, FMVal.str s) :: m').map entryLines).flatten ++
          (marker ++ '\n' :: b) =
          (k ++ ':' :: ' ' :: esc s ++ ['\n']) ++
            ((m'.map entryLines).flatten ++ (marker ++ '\n' :: b)) := by
        simp [entryLines]
      rw [hshape, takeLine_entry_str k s _ hkv]
      exact not_item_prefix_append hkv.2.2
    | list l =>
      have hshape : (((k, FMVal.list l) :: m').map entryLines).flatten ++
          (marker ++ '\n' :: b) =
          (k ++ ':' :: '\n' :: (l.map (fun i => '-' :: ' ' :: esc i ++ ['\n'])).flatten) ++
            ((m'.map entryLines).flatten ++ (marker ++ '\n' :: b)) := by
        simp [entryLines]
      rw [hshape, takeLine_entry_list k _ _ hkv]
      have hcolon : k ++ [':'] = k ++ ':' :: ([] : List Char) := rfl
      rw [hcolon]
      exact not_item_prefix_append hkv.2.2

theorem parseEntries_serialized (m : FMMap) (b : List Char)
    (hk : ∀ p ∈ m, validKey p.1) :
    parseEntries ((m.map entryLines).flatten ++ (marker ++ '\n' :: b)) = some (m, b) := by
  induction m with
  | nil =>
    have htl : takeLine (marker ++ '\n' :: b) = (marker, b) :=
      takeLine_append _ _ (by decide)
    simp only [List.map_nil, List.flatten_nil, List.nil_append]
    rw [parseEntries, dif_neg (by simp [marker] : ¬ (marker ++ '\n' :: b) = []), htl]
    dsimp only
    rw [if_pos rfl]
  | cons p m' ih =>
    obtain ⟨k, v⟩ := p
    have hkv := hk (k, v) (by simp)
    have ih' := ih (fun q hq => hk q (by simp [hq]))
    cases v with
    | str s =>
      have hshape : (((k, FMVal.str s) :: m').map entryLines).flatten ++
          (marker ++ '\n' :: b)
          = (k ++ ':' :: ' ' :: esc s ++ ['\n']) ++
              ((m'.map entryLines).flatten ++ (marker ++ '\n' :: b)) := by
        simp [entryLines]
      have hne : (k ++ ':' :: ' ' :: esc s ++ ['\n']) ++
          ((m'.map entryLines).flatten ++ (marker ++ '\n' :: b)) ≠ [] := by
        simp
      have hnm : ¬ (k ++ ':' :: ' ' :: esc s) = marker :=
        ne_marker_of_colon (by simp)
      rw [hshape, parseEntries, dif_neg hne,
        takeLine_entry_str k s _ hkv]
      dsimp only
      rw [if_neg hnm, splitColon_append k (' ' :: esc s) hkv.1]
      dsimp only
      rw [if_neg (by simp : ¬ (' ' :: esc s) = []), ih']
      simp [unesc_esc]
    | list l =>
      have hshape : (((k, FMVal.list l) :: m').map entryLines).flatten ++
          (marker ++ '\n' :: b)
          = (k ++ ':' :: '\n' ::
              (l.map (fun i => '-' :: ' ' :: esc i ++ ['\n'])).flatten) ++
              ((m'.map entryLines).flatten ++ (marker ++ '\n' :: b)) := by
        simp [entryLines]
      have hne : (k ++ ':' :: '\n' ::
          (l.map (fun i => '-' :: ' ' :: esc i ++ ['\n'])).flatten) ++
          ((m'.map entryLines).flatten ++ (marker ++ '\n' :: b)) ≠ [] := by
        simp
      have hnm : ¬ (k ++ [':']) = marker := ne_marker_of_colon (by simp)
      have hsc : splitColon (k ++ [':']) = some (k, []) := by
        have h0 := splitColon_append k [] hkv.1
        simpa using h0
      rw [hshape, parseEntries, dif_neg hne, takeLine_entry_list k _ _ hkv]
      dsimp only
      rw [if_neg hnm, hsc]
      dsimp only
      rw [if_pos rfl,
        takeItems_serialized l _ (entries_first_line_not_item m' b
          (fun q hq => hk q (by simp [hq]))), ih']

/-- C3.  Front-matter codec round-trip: for every metadata mapping whose
values are strings or lists of strings and whose keys are well-formed
front-matter keys (no colon or newline, not starting with the list-item
prefix — every key the store reads or writes qualifies), and for every body
text, parsing the serialized form yields back exactly the same
metadata/body pair. -/
theorem frontmatter_roundtrip (m : FMMap) (b : List Char)
    (hk : ∀ p ∈ m, validKey p.1) :
    parseFM (serializeFM m b) = (m, b) := by
  have hpre : (marker ++ ['\n']).isPrefixOf (serializeFM m b) = true := by
    simp [serializeFM, marker, List.isPrefixOf]
  have hdrop : (serializeFM m b).drop 4 =
      (m.map entryLines).flatten ++ (marker ++ '\n' :: b) := by
    simp [serializeFM, marker]
  rw [parseFM, if_pos hpre, hdrop, parseEntries_serialized m b hk]

/-- Witness for C3: the round-trip at a concrete metadata mapping (scalar
with colon and newline inside, a list value, an empty scalar) and a body
containing a stray marker line. -/
theorem frontmatter_roundtrip_witness :
    parseFM (serializeFM
      [("title".toList, .str "My: Doc\nSecond".toList),
       ("tags".toList, .list ["api".toList, "guide".toList]),
       ("description".toList, .str [])]
      "body\n---\nrest".toList) =
    ([("title".toList, .str "My: Doc\nSecond".toList),
      ("tags".toList, .list ["api".toList, "guide".toList]),
      ("description".toList, .str [])],
     "body\n---\nrest".toList) :=
  frontmatter_roundtrip _ _ (by decide)

end Wiki
